import Mathlib

/-!
Verification of the `non-empty-slice` library: shallow embedding of the
non-empty container wrappers (`NonEmptyVec`, `NonEmptySlice`, boxed slices,
`CowSlice`) and their operations, translated from the Rust source.

Rust's `Vec<T>`, boxed slice `Box<[T]>`, and slice `[T]` are all modelled as
`List α`.  Lengths are `Nat` (the claims do not exercise `usize` overflow).
Operations of the Rust standard library (`Vec::pop`, `Vec::remove`,
`slice::chunks`, ...) are translated in the `Vec`/`Slice` namespaces; the
wrapper's own guard logic (`next_non_empty`, the `bool::then` shortcuts) is
translated on top of them, mirroring `src/vec.rs`, `src/slice.rs`,
`src/iter.rs`, `src/boxed.rs`, `src/cow.rs` and `src/serde.rs`.

Operations of the Rust standard library that panic on out-of-range indices
(`Vec::remove`, `Vec::swap_remove`) are modelled with `Option`-valued lookups
(`l[i]?`); theorems about them are stated at in-bounds inputs.
-/

/-- `non_zero_size::Size`: a `usize` statically guaranteed to be non-zero.
`Size::MIN` is `1`. -/
structure Size where
  get : Nat
  pos : 0 < get

/-- `Size::MIN`, the smallest non-zero size. -/
def Size.MIN : Size := ⟨1, Nat.one_pos⟩

/-! ## Rust standard `Vec<T>` operations, modelled on `List α` -/

/-- `Vec::push`: appends the value at the end. -/
def Vec.push (l : List α) (x : α) : List α := l ++ [x]

/-- `Vec::insert`: inserts at index `i`, shifting later items right.
(Rust panics when `i > len`; this model then appends, a case outside
every theorem below.) -/
def Vec.insert (l : List α) (i : Nat) (x : α) : List α :=
  l.take i ++ x :: l.drop i

/-- `Vec::append`: moves all items of `other` to the end of `l`, leaving
`other` empty.  Returns the pair (new `l`, new `other`). -/
def Vec.append (l other : List α) : List α × List α := (l ++ other, [])

/-- `Vec::extend_from_slice` / `Extend::extend`: appends all items of `s`. -/
def Vec.extendFromSlice (l s : List α) : List α := l ++ s

/-- `Vec::truncate`: keeps the first `n` items, drops the rest. -/
def Vec.truncate (l : List α) (n : Nat) : List α := l.take n

/-- `Vec::split_off`: splits at index `i`; `l` keeps `[0, i)` and the
returned vector holds `[i, len)`. -/
def Vec.splitOff (l : List α) (i : Nat) : List α × List α := (l.take i, l.drop i)

/-- `Vec::resize`: grows by cloning `value` when `new > len`, otherwise
truncates to `new`. -/
def Vec.resize (l : List α) (new : Nat) (value : α) : List α :=
  if l.length < new then l ++ List.replicate (new - l.length) value else l.take new

/-- `Vec::resize_with`: grows with generated values when `new > len`,
otherwise truncates.  The generator (an `FnMut` in Rust) is modelled as a
function of the generation index. -/
def Vec.resizeWith (l : List α) (new : Nat) (f : Nat → α) : List α :=
  if l.length < new then l ++ (List.range (new - l.length)).map f else l.take new

/-- Inner loop of `Vec::dedup_by`: `kept` is the last retained item; an
item `y` is removed when `same y kept` holds, otherwise it is retained and
becomes the new comparison target. -/
def Vec.dedupByLoop (same : α → α → Bool) (kept : α) : List α → List α
  | [] => []
  | y :: ys =>
    if same y kept then Vec.dedupByLoop same kept ys
    else y :: Vec.dedupByLoop same y ys

/-- `Vec::dedup_by`: removes consecutive items `a` for which
`same a b` holds against the previously retained item `b` (the first item
of every run survives). -/
def Vec.dedupBy (same : α → α → Bool) : List α → List α
  | [] => []
  | x :: xs => x :: Vec.dedupByLoop same x xs

/-- `Vec::dedup`: `dedup_by` with `PartialEq` equality. -/
def Vec.dedup [BEq α] (l : List α) : List α :=
  Vec.dedupBy (fun a b => a == b) l

/-- `Vec::dedup_by_key`: `dedup_by` comparing keys. -/
def Vec.dedupByKey [BEq β] (key : α → β) (l : List α) : List α :=
  Vec.dedupBy (fun a b => key a == key b) l

/-- `Vec::pop`: removes and returns the last item, `none` when empty.
Returns (result, new vector). -/
def Vec.pop (l : List α) : Option α × List α :=
  match l.getLast? with
  | none => (none, l)
  | some last => (some last, l.dropLast)

/-- `Vec::pop_if`: pops the last item only when the predicate holds on it;
`none` (and no mutation) when the vector is empty or the predicate fails. -/
def Vec.popIf (p : α → Bool) (l : List α) : Option α × List α :=
  match l.getLast? with
  | none => (none, l)
  | some last => if p last then (some last, l.dropLast) else (none, l)

/-- `Vec::pop_if`, instrumented: the third component lists the arguments
the predicate was invoked on (in Rust, `&mut self.last_mut()?` is passed to
the predicate exactly once when the vector is non-empty). -/
def Vec.popIfTrace (p : α → Bool) (l : List α) : Option α × List α × List α :=
  match l.getLast? with
  | none => (none, l, [])
  | some last =>
    if p last then (some last, l.dropLast, [last]) else (none, l, [last])

/-- `Vec::remove`: removes the item at `i`, shifting later items left.
The removed item is `l[i]?` (`none` models the out-of-bounds panic). -/
def Vec.remove (l : List α) (i : Nat) : Option α × List α :=
  (l[i]?, l.eraseIdx i)

/-- `Vec::swap_remove`: returns the item at `i` after overwriting position
`i` with the last item and shrinking by one. -/
def Vec.swapRemove (l : List α) (i : Nat) : Option α × List α :=
  match l.getLast? with
  | none => (none, l)
  | some last => (l[i]?, (l.set i last).dropLast)

/-! ## `EmptyVec<T>` and `NonEmptyVec<T>` (`src/vec.rs`) -/

/-- `EmptyVec<T>`: the construction error, carrying the rejected empty
vector (`EmptyVec::new` is crate-private and only called on empty input). -/
structure EmptyVec (α : Type u) where
  vec : List α

/-- `EmptyVec::get`: returns the contained empty vector. -/
def EmptyVec.get (e : EmptyVec α) : List α := e.vec

/-- `NonEmptyVec<T>`: `repr(transparent)` wrapper over `Vec<T>`.  The
non-emptiness invariant is not part of the type (mirroring
`new_unchecked`, which performs no check); it is established by the
checked constructor and preserved by every mutator, which the theorems
below prove. -/
structure NonEmptyVec (α : Type u) where
  inner : List α

/-- `NonEmptyVec::new_unchecked`: wraps without checking. -/
def NonEmptyVec.newUnchecked (inner : List α) : NonEmptyVec α := ⟨inner⟩

/-- `NonEmptyVec::new`: errors with `EmptyVec` holding the input when the
input is empty, otherwise wraps it unchecked. -/
def NonEmptyVec.new (vector : List α) : Except (EmptyVec α) (NonEmptyVec α) :=
  if vector.isEmpty then Except.error ⟨vector⟩
  else Except.ok (NonEmptyVec.newUnchecked vector)

/-- `NonEmptyVec::into_vec`: returns the contained `Vec<T>`. -/
def NonEmptyVec.intoVec (v : NonEmptyVec α) : List α := v.inner

/-- `NonEmptyVec::len` (via `NonEmptySlice::len`): the length, non-zero by
the invariant.  Modelled as the plain `Nat` length. -/
def NonEmptyVec.len (v : NonEmptyVec α) : Nat := v.inner.length

/-- `NonEmptyVec::is_empty`: always returns `false` (deprecated in the
source since the vector is never empty). -/
def NonEmptyVec.isEmpty (_ : NonEmptyVec α) : Bool := false

/-- `NonEmptyVec::next_empty`: `self.len() == Size::MIN`, i.e. the next
removal would try to empty the vector. -/
def NonEmptyVec.nextEmpty (v : NonEmptyVec α) : Bool := v.len == Size.MIN.get

/-- `NonEmptyVec::next_non_empty`: negation of `next_empty`. -/
def NonEmptyVec.nextNonEmpty (v : NonEmptyVec α) : Bool := !v.nextEmpty

/-- `NonEmptyVec::push`. -/
def NonEmptyVec.push (v : NonEmptyVec α) (value : α) : NonEmptyVec α :=
  ⟨Vec.push v.inner value⟩

/-- `NonEmptyVec::insert`. -/
def NonEmptyVec.insert (v : NonEmptyVec α) (index : Nat) (value : α) : NonEmptyVec α :=
  ⟨Vec.insert v.inner index value⟩

/-- `NonEmptyVec::append`: returns (new self, drained other). -/
def NonEmptyVec.append (v : NonEmptyVec α) (other : List α) : NonEmptyVec α × List α :=
  let r := Vec.append v.inner other
  (⟨r.1⟩, r.2)

/-- `NonEmptyVec::extend_from` / `Extend::extend`. -/
def NonEmptyVec.extendFrom (v : NonEmptyVec α) (s : List α) : NonEmptyVec α :=
  ⟨Vec.extendFromSlice v.inner s⟩

/-- `NonEmptyVec::truncate`: the kept length is a `Size`, hence non-zero. -/
def NonEmptyVec.truncate (v : NonEmptyVec α) (len : Size) : NonEmptyVec α :=
  ⟨Vec.truncate v.inner len.get⟩

/-- `NonEmptyVec::split_off`: the index is a `Size`, hence non-zero;
returns (new self, tail as a plain possibly-empty vector). -/
def NonEmptyVec.splitOff (v : NonEmptyVec α) (i : Size) : NonEmptyVec α × List α :=
  let r := Vec.splitOff v.inner i.get
  (⟨r.1⟩, r.2)

/-- `NonEmptyVec::resize`: the new length is a `Size`, hence non-zero. -/
def NonEmptyVec.resize (v : NonEmptyVec α) (new : Size) (value : α) : NonEmptyVec α :=
  ⟨Vec.resize v.inner new.get value⟩

/-- `NonEmptyVec::resize_with`: the new length is a `Size`, hence non-zero. -/
def NonEmptyVec.resizeWith (v : NonEmptyVec α) (new : Size) (f : Nat → α) : NonEmptyVec α :=
  ⟨Vec.resizeWith v.inner new.get f⟩

/-- `NonEmptyVec::dedup`. -/
def NonEmptyVec.dedup [BEq α] (v : NonEmptyVec α) : NonEmptyVec α :=
  ⟨Vec.dedup v.inner⟩

/-- `NonEmptyVec::dedup_by`. -/
def NonEmptyVec.dedupBy (v : NonEmptyVec α) (same : α → α → Bool) : NonEmptyVec α :=
  ⟨Vec.dedupBy same v.inner⟩

/-- `NonEmptyVec::dedup_by_key`. -/
def NonEmptyVec.dedupByKey [BEq β] (v : NonEmptyVec α) (key : α → β) : NonEmptyVec α :=
  ⟨Vec.dedupByKey key v.inner⟩

/-- `NonEmptyVec::pop`: `next_non_empty().then(|| vec.pop()).flatten()` —
the inner pop runs only when the guard holds. -/
def NonEmptyVec.pop (v : NonEmptyVec α) : Option α × NonEmptyVec α :=
  if v.nextNonEmpty then
    let r := Vec.pop v.inner
    (r.1, ⟨r.2⟩)
  else (none, v)

/-- `NonEmptyVec::pop_if`: `next_non_empty().then(|| vec.pop_if(p)).flatten()`. -/
def NonEmptyVec.popIf (p : α → Bool) (v : NonEmptyVec α) : Option α × NonEmptyVec α :=
  if v.nextNonEmpty then
    let r := Vec.popIf p v.inner
    (r.1, ⟨r.2⟩)
  else (none, v)

/-- `NonEmptyVec::pop_if`, instrumented with the list of arguments the
predicate was invoked on: the `then` closure (and hence `Vec::pop_if`,
the only call site of the predicate) runs only when `next_non_empty`
holds. -/
def NonEmptyVec.popIfTrace (p : α → Bool) (v : NonEmptyVec α) :
    Option α × NonEmptyVec α × List α :=
  if v.nextNonEmpty then
    let r := Vec.popIfTrace p v.inner
    (r.1, ⟨r.2.1⟩, r.2.2)
  else (none, v, [])

/-- `NonEmptyVec::remove`: `next_non_empty().then(|| vec.remove(i))`. -/
def NonEmptyVec.remove (v : NonEmptyVec α) (i : Nat) : Option α × NonEmptyVec α :=
  if v.nextNonEmpty then
    let r := Vec.remove v.inner i
    (r.1, ⟨r.2⟩)
  else (none, v)

/-- `NonEmptyVec::swap_remove`: `next_non_empty().then(|| vec.swap_remove(i))`. -/
def NonEmptyVec.swapRemove (v : NonEmptyVec α) (i : Nat) : Option α × NonEmptyVec α :=
  if v.nextNonEmpty then
    let r := Vec.swapRemove v.inner i
    (r.1, ⟨r.2⟩)
  else (none, v)

/-! ## `NonEmptySlice<T>` and boxed slices (`src/slice.rs`, `src/boxed.rs`) -/

/-- `NonEmptySlice<T>`: `repr(transparent)` wrapper over `[T]`. -/
structure NonEmptySlice (α : Type u) where
  inner : List α

/-- `NonEmptySlice::is_empty`: always returns `false` (deprecated in the
source since the slice is never empty). -/
def NonEmptySlice.isEmpty (_ : NonEmptySlice α) : Bool := false

/-- `EmptyBoxedSlice<T>`: the construction error for boxed slices,
carrying the rejected empty boxed slice. -/
structure EmptyBoxedSlice (α : Type u) where
  boxed : List α

/-- `EmptyBoxedSlice::get`: returns the contained empty boxed slice. -/
def EmptyBoxedSlice.get (e : EmptyBoxedSlice α) : List α := e.boxed

/-- `NonEmptySlice::from_boxed_slice`: errors with `EmptyBoxedSlice`
holding the input when the input is empty, otherwise reinterprets it in
place (`from_boxed_slice_unchecked`). -/
def NonEmptySlice.fromBoxedSlice (boxed : List α) :
    Except (EmptyBoxedSlice α) (NonEmptySlice α) :=
  if boxed.isEmpty then Except.error ⟨boxed⟩
  else Except.ok ⟨boxed⟩

/-! ## Chunking iterators (`src/iter.rs`)

`Chunks::into_iter` maps `slice::chunks` (of the Rust core library) under
`NonEmptySlice::from_slice_unchecked`; `ChunksExact::into_iter` does the
same with `slice::chunks_exact`.  The lazy iterators are modelled by the
full lists they produce. -/

/-- Rust `slice::chunks`: non-overlapping chunks of `size` items from the
front; the last chunk may be shorter.  `size` is non-zero by `Size`. -/
def Slice.chunksList (size : Size) : (l : List α) → List (List α)
  | [] => []
  | x :: xs => (x :: xs).take size.get :: Slice.chunksList size ((x :: xs).drop size.get)
termination_by l => l.length
decreasing_by
  have h := size.pos
  simp only [List.length_drop, List.length_cons]
  omega

/-- Rust `slice::chunks_exact`: only full chunks of `size` items from the
front; a shorter final remainder is dropped. -/
def Slice.chunksExactList (size : Size) (l : List α) : List (List α) :=
  if size.get ≤ l.length then
    l.take size.get :: Slice.chunksExactList size (l.drop size.get)
  else []
termination_by l.length
decreasing_by
  have hp := size.pos
  simp only [List.length_drop]
  omega

/-- `Chunks::into_iter` (`NonEmptySlice::chunks`): each produced chunk is
reinterpreted as a `NonEmptySlice`. -/
def Chunks.intoIter (s : NonEmptySlice α) (size : Size) : List (NonEmptySlice α) :=
  (Slice.chunksList size s.inner).map NonEmptySlice.mk

/-- `ChunksExact::into_iter` (`NonEmptySlice::chunks_exact`). -/
def ChunksExact.intoIter (s : NonEmptySlice α) (size : Size) : List (NonEmptySlice α) :=
  (Slice.chunksExactList size s.inner).map NonEmptySlice.mk

/-! ## Serialization (`src/serde.rs`)

The serde framework is an external collaborator: serialization of the
plain `Vec<T>` is its contract and is modelled as the identity on the
wire (a `List α`).  `Serialize for NonEmptyVec` delegates to the inner
vector's serializer; `Deserialize for NonEmptyVec` first deserializes a
plain `Vec`, then runs `NonEmptyVec::new`, mapping the `EmptyVec` error
into the framework's error via `D::Error::custom` (modelled by the
error's display message). -/

/-- `EMPTY_VEC`: the display message of `EmptyVec<T>`. -/
def EMPTY_VEC : String := "the vector is empty"

/-- `Serialize for NonEmptyVec`: `self.as_vec().serialize(serializer)`. -/
def NonEmptyVec.serialize (v : NonEmptyVec α) : List α := v.inner

/-- `Deserialize for NonEmptyVec`: deserialize a plain `Vec`, then
`Self::new(maybe_empty).map_err(D::Error::custom)`. -/
def NonEmptyVec.deserialize (wire : List α) : Except String (NonEmptyVec α) :=
  match NonEmptyVec.new wire with
  | Except.ok v => Except.ok v
  | Except.error _ => Except.error EMPTY_VEC

/-! ## `CowSlice` (`src/cow.rs`)

`CowSlice` wraps `Cow<'_, [T]>`.  Its derived `PartialEq`/`Ord`/`Hash`
delegate to the `Cow` implementations of the Rust standard library, which
dereference both sides to the underlying slice: equality is element-wise
slice equality, ordering is lexicographic slice ordering, and hashing
hashes the dereferenced slice (length, then each element). -/

/-- `Cow<'_, [T]>`: borrowed or owned element sequence. -/
inductive Cow (α : Type u) where
  | borrowed (value : List α)
  | owned (value : List α)

/-- `Cow::deref`: the underlying slice, whichever branch is active. -/
def Cow.deref : Cow α → List α
  | .borrowed value => value
  | .owned value => value

/-- `CowSlice<'_, T>`: non-empty clone-on-write slice wrapper. -/
structure CowSlice (α : Type u) where
  value : Cow α

/-- `CowSlice::get`: the wrapped slice. -/
def CowSlice.get (c : CowSlice α) : List α := c.value.deref

/-- Lexicographic comparison of slices, as in Rust's `Ord for [T]`. -/
def Slice.lexCompare (cmp : α → α → Ordering) : List α → List α → Ordering
  | [], [] => .eq
  | [], _ :: _ => .lt
  | _ :: _, [] => .gt
  | x :: xs, y :: ys =>
    match cmp x y with
    | .eq => Slice.lexCompare cmp xs ys
    | o => o

/-- Derived `PartialEq for CowSlice`, via `PartialEq for Cow`: both sides
are dereferenced and compared as slices. -/
def CowSlice.beq [BEq α] (a b : CowSlice α) : Bool := a.get == b.get

/-- Derived `Ord for CowSlice`, via `Ord for Cow`: both sides are
dereferenced and compared lexicographically, with `cmp` comparing
elements. -/
def CowSlice.compareBy (cmp : α → α → Ordering) (a b : CowSlice α) : Ordering :=
  Slice.lexCompare cmp a.get b.get

/-- Derived `Hash for CowSlice`, via `Hash for Cow`: the dereferenced
slice is hashed — its length is fed to the hasher state, then each element
in order (`mix` is the hasher's state transition on one element). -/
def CowSlice.hashWith (mix : Nat → α → Nat) (seed : Nat) (c : CowSlice α) : Nat :=
  c.get.foldl mix (seed + c.get.length)

/-! ## Helper lemmas -/

/-- Taking a positive number of items from a non-empty list is non-empty. -/
theorem take_pos_ne_nil {l : List α} (h : l ≠ []) {n : Nat} (hn : 0 < n) :
    l.take n ≠ [] := by
  cases l with
  | nil => exact absurd rfl h
  | cons x xs =>
    cases n with
    | zero => omega
    | succ m => simp

/-- Dropping the last item of a list of at least two items is non-empty. -/
theorem dropLast_ne_nil_of_one_lt {l : List α} (h : 1 < l.length) :
    l.dropLast ≠ [] := by
  rw [← List.length_pos, List.length_dropLast]
  omega

/-- Erasing one index from a list of at least two items is non-empty. -/
theorem eraseIdx_ne_nil_of_one_lt {l : List α} (h : 1 < l.length) (i : Nat) :
    l.eraseIdx i ≠ [] := by
  have hl := List.length_eraseIdx l i
  rw [← List.length_pos, hl]
  split <;> omega

/-- The removal guard is down exactly on length-one vectors. -/
theorem NonEmptyVec.nextNonEmpty_eq_false_iff (v : NonEmptyVec α) :
    v.nextNonEmpty = false ↔ v.inner.length = 1 := by
  simp [NonEmptyVec.nextNonEmpty, NonEmptyVec.nextEmpty, NonEmptyVec.len, Size.MIN]

/-- The removal guard is up exactly on vectors of length other than one. -/
theorem NonEmptyVec.nextNonEmpty_eq_true_iff (v : NonEmptyVec α) :
    v.nextNonEmpty = true ↔ v.inner.length ≠ 1 := by
  simp [NonEmptyVec.nextNonEmpty, NonEmptyVec.nextEmpty, NonEmptyVec.len, Size.MIN]

/-- `pop` leaves a non-empty vector non-empty. -/
theorem NonEmptyVec.pop_state_ne_nil (v : NonEmptyVec α) (h : v.inner ≠ []) :
    (NonEmptyVec.pop v).2.inner ≠ [] := by
  unfold NonEmptyVec.pop
  by_cases hc : v.inner.length = 1
  · rw [(NonEmptyVec.nextNonEmpty_eq_false_iff v).mpr hc]
    simpa using h
  · rw [(NonEmptyVec.nextNonEmpty_eq_true_iff v).mpr hc]
    have hgt : 1 < v.inner.length := by
      have := List.length_pos.mpr h
      omega
    simp only [if_true]
    simp [Vec.pop, List.getLast?_eq_getLast v.inner h]
    exact dropLast_ne_nil_of_one_lt hgt

/-- `pop_if` leaves a non-empty vector non-empty. -/
theorem NonEmptyVec.popIf_state_ne_nil (p : α → Bool) (v : NonEmptyVec α)
    (h : v.inner ≠ []) : (NonEmptyVec.popIf p v).2.inner ≠ [] := by
  unfold NonEmptyVec.popIf
  by_cases hc : v.inner.length = 1
  · rw [(NonEmptyVec.nextNonEmpty_eq_false_iff v).mpr hc]
    simpa using h
  · rw [(NonEmptyVec.nextNonEmpty_eq_true_iff v).mpr hc]
    have hgt : 1 < v.inner.length := by
      have := List.length_pos.mpr h
      omega
    simp only [if_true]
    simp [Vec.popIf, List.getLast?_eq_getLast v.inner h]
    split
    · exact dropLast_ne_nil_of_one_lt hgt
    · exact h

/-- `remove` leaves a non-empty vector non-empty. -/
theorem NonEmptyVec.remove_state_ne_nil (v : NonEmptyVec α) (i : Nat)
    (h : v.inner ≠ []) : (NonEmptyVec.remove v i).2.inner ≠ [] := by
  unfold NonEmptyVec.remove
  by_cases hc : v.inner.length = 1
  · rw [(NonEmptyVec.nextNonEmpty_eq_false_iff v).mpr hc]
    simpa using h
  · rw [(NonEmptyVec.nextNonEmpty_eq_true_iff v).mpr hc]
    have hgt : 1 < v.inner.length := by
      have := List.length_pos.mpr h
      omega
    simp only [if_true]
    simp [Vec.remove]
    exact ⟨h, fun h1 => absurd h1 hc⟩

/-- `swap_remove` leaves a non-empty vector non-empty. -/
theorem NonEmptyVec.swapRemove_state_ne_nil (v : NonEmptyVec α) (i : Nat)
    (h : v.inner ≠ []) : (NonEmptyVec.swapRemove v i).2.inner ≠ [] := by
  unfold NonEmptyVec.swapRemove
  by_cases hc : v.inner.length = 1
  · rw [(NonEmptyVec.nextNonEmpty_eq_false_iff v).mpr hc]
    simpa using h
  · rw [(NonEmptyVec.nextNonEmpty_eq_true_iff v).mpr hc]
    have hgt : 1 < v.inner.length := by
      have := List.length_pos.mpr h
      omega
    simp only [if_true]
    simp [Vec.swapRemove, List.getLast?_eq_getLast v.inner h]
    apply dropLast_ne_nil_of_one_lt
    rw [List.length_set]
    omega

/-- `slice::chunks` produces no chunks exactly on the empty slice. -/
theorem Slice.chunksList_eq_nil_iff (size : Size) (l : List α) :
    Slice.chunksList size l = [] ↔ l = [] := by
  cases l with
  | nil => simp [Slice.chunksList]
  | cons x xs => simp [Slice.chunksList]

/-- Structure of `slice::chunks`, by induction on a length bound: the
chunks concatenate back to the slice, every chunk is non-empty and at most
`size` long, and every chunk but the last is exactly `size` long. -/
theorem Slice.chunksList_aux (size : Size) :
    ∀ (n : Nat) (l : List α), l.length ≤ n →
      (Slice.chunksList size l).flatten = l ∧
      (∀ c ∈ Slice.chunksList size l, c ≠ [] ∧ c.length ≤ size.get) ∧
      (∀ c ∈ (Slice.chunksList size l).dropLast, c.length = size.get) := by
  intro n
  induction n with
  | zero =>
    intro l hl
    have hnil : l = [] := List.eq_nil_of_length_eq_zero (Nat.le_zero.mp hl)
    subst hnil
    simp [Slice.chunksList]
  | succ n ih =>
    intro l hl
    cases l with
    | nil => simp [Slice.chunksList]
    | cons x xs =>
      have hpos := size.pos
      have hlen : ((x :: xs).drop size.get).length ≤ n := by
        simp only [List.length_drop, List.length_cons]
        simp only [List.length_cons] at hl
        omega
      obtain ⟨ihf, ihm, ihd⟩ := ih _ hlen
      rw [Slice.chunksList]
      refine ⟨?_, ?_, ?_⟩
      · rw [List.flatten_cons, ihf, List.take_append_drop]
      · intro c hc
        rcases List.mem_cons.mp hc with hc | hc
        · subst hc
          constructor
          · have hmin : ((x :: xs).take size.get).length = min size.get (xs.length + 1) := by
              simp [List.length_take]
            intro hnil
            rw [hnil] at hmin
            simp at hmin
            omega
          · simp [List.length_take]
        · exact ihm c hc
      · intro c hc
        by_cases hrest : Slice.chunksList size ((x :: xs).drop size.get) = []
        · rw [hrest] at hc
          simp at hc
        · rw [List.dropLast_cons_of_ne_nil hrest] at hc
          rcases List.mem_cons.mp hc with hc | hc
          · subst hc
            have hd : (x :: xs).drop size.get ≠ [] := by
              intro hd
              exact hrest ((Slice.chunksList_eq_nil_iff size _).mpr hd)
            have hlt : size.get < (x :: xs).length := by
              by_contra hge
              push_neg at hge
              apply hd
              rw [List.drop_eq_nil_iff]
              exact hge
            simp only [List.length_cons] at hlt
            simp only [List.length_take, List.length_cons]
            omega
          · exact ihd c hc

/-- Structure of `slice::chunks_exact`, by induction on a length bound:
every produced chunk is exactly `size` long. -/
theorem Slice.chunksExactList_aux (size : Size) :
    ∀ (n : Nat) (l : List α), l.length ≤ n →
      ∀ c ∈ Slice.chunksExactList size l, c.length = size.get := by
  intro n
  induction n with
  | zero =>
    intro l hl
    have hnil : l = [] := List.eq_nil_of_length_eq_zero (Nat.le_zero.mp hl)
    subst hnil
    rw [Slice.chunksExactList]
    have := size.pos
    simp
    omega
  | succ n ih =>
    intro l hl c hc
    rw [Slice.chunksExactList] at hc
    by_cases hle : size.get ≤ l.length
    · rw [if_pos hle] at hc
      have hpos := size.pos
      have hlen : (l.drop size.get).length ≤ n := by
        simp only [List.length_drop]
        omega
      rcases List.mem_cons.mp hc with hc | hc
      · subst hc
        simp only [List.length_take]
        omega
      · exact ih _ hlen c hc
    · rw [if_neg hle] at hc
      simp at hc

/-- Lexicographic comparison of a slice with itself is `eq` whenever the
element comparison is reflexively `eq`. -/
theorem Slice.lexCompare_self (cmp : α → α → Ordering)
    (hcmp : ∀ x, cmp x x = Ordering.eq) (l : List α) :
    Slice.lexCompare cmp l l = Ordering.eq := by
  induction l with
  | nil => rfl
  | cons x xs ih => simp [Slice.lexCompare, hcmp x, ih]

/-- Mapping commutes with `dropLast`. -/
theorem map_dropLast_comm (f : α → β) (l : List α) :
    (l.map f).dropLast = l.dropLast.map f := by
  induction l with
  | nil => rfl
  | cons x xs ih =>
    cases xs with
    | nil => rfl
    | cons y ys => simp [List.dropLast_cons_of_ne_nil, ih]

/-! ## Claim theorems -/

/-- C1: for every non-empty `NonEmptyVec`, every public mutating operation
(push, insert, append, extend, truncate to a non-zero `Size`, split_off at
a non-zero `Size`, resize/resize_with to a non-zero `Size`,
dedup/dedup_by/dedup_by_key, pop, pop_if, remove, swap_remove) leaves the
vector non-empty, i.e. the length at least 1. -/
theorem NonEmptyVec.mutators_preserve_invariant [BEq α] (v : NonEmptyVec α)
    (h : v.inner ≠ []) :
    (∀ x, (v.push x).inner ≠ []) ∧
    (∀ i x, (v.insert i x).inner ≠ []) ∧
    (∀ other, (v.append other).1.inner ≠ []) ∧
    (∀ s, (v.extendFrom s).inner ≠ []) ∧
    (∀ n : Size, (v.truncate n).inner ≠ []) ∧
    (∀ n : Size, (v.splitOff n).1.inner ≠ []) ∧
    (∀ (n : Size) (x : α), (v.resize n x).inner ≠ []) ∧
    (∀ (n : Size) (f : Nat → α), (v.resizeWith n f).inner ≠ []) ∧
    (v.dedup.inner ≠ []) ∧
    (∀ same, (v.dedupBy same).inner ≠ []) ∧
    (∀ key : α → Nat, (v.dedupByKey key).inner ≠ []) ∧
    ((NonEmptyVec.pop v).2.inner ≠ []) ∧
    (∀ p, (NonEmptyVec.popIf p v).2.inner ≠ []) ∧
    (∀ i, (NonEmptyVec.remove v i).2.inner ≠ []) ∧
    (∀ i, (NonEmptyVec.swapRemove v i).2.inner ≠ []) := by
  refine ⟨?_, ?_, ?_, ?_, ?_, ?_, ?_, ?_, ?_, ?_, ?_, ?_, ?_, ?_, ?_⟩
  · intro x
    simp [NonEmptyVec.push, Vec.push]
  · intro i x
    simp [NonEmptyVec.insert, Vec.insert]
  · intro other
    simp [NonEmptyVec.append, Vec.append, h]
  · intro s
    simp [NonEmptyVec.extendFrom, Vec.extendFromSlice, h]
  · intro n
    exact take_pos_ne_nil h n.pos
  · intro n
    exact take_pos_ne_nil h n.pos
  · intro n x
    simp only [NonEmptyVec.resize, Vec.resize]
    split
    · simp [h]
    · exact take_pos_ne_nil h n.pos
  · intro n f
    simp only [NonEmptyVec.resizeWith, Vec.resizeWith]
    split
    · simp [h]
    · exact take_pos_ne_nil h n.pos
  · cases hv : v.inner with
    | nil => exact absurd hv h
    | cons x xs => simp [NonEmptyVec.dedup, Vec.dedup, Vec.dedupBy, hv]
  · intro same
    cases hv : v.inner with
    | nil => exact absurd hv h
    | cons x xs => simp [NonEmptyVec.dedupBy, Vec.dedupBy, hv]
  · intro key
    cases hv : v.inner with
    | nil => exact absurd hv h
    | cons x xs => simp [NonEmptyVec.dedupByKey, Vec.dedupByKey, Vec.dedupBy, hv]
  · exact NonEmptyVec.pop_state_ne_nil v h
  · intro p
    exact NonEmptyVec.popIf_state_ne_nil p v h
  · intro i
    exact NonEmptyVec.remove_state_ne_nil v i h
  · intro i
    exact NonEmptyVec.swapRemove_state_ne_nil v i h

/-- C1 witness: the invariant theorem applied at a concrete vector. -/
theorem NonEmptyVec.mutators_preserve_invariant_witness :
    (NonEmptyVec.push (⟨[1, 2]⟩ : NonEmptyVec Nat) 3).inner ≠ [] :=
  (NonEmptyVec.mutators_preserve_invariant ⟨[1, 2]⟩ (by decide)).1 3

/-- C2: on a length-1 vector, `pop`, `remove 0` and `swap_remove 0` return
`none` and leave the vector unchanged (length still 1, same element); on a
length-2 vector each removes and returns the expected element, leaving
length 1. -/
theorem NonEmptyVec.guarded_removal_boundary (a b : α) :
    NonEmptyVec.pop ⟨[a]⟩ = (none, ⟨[a]⟩) ∧
    NonEmptyVec.remove ⟨[a]⟩ 0 = (none, ⟨[a]⟩) ∧
    NonEmptyVec.swapRemove ⟨[a]⟩ 0 = (none, ⟨[a]⟩) ∧
    NonEmptyVec.pop ⟨[a, b]⟩ = (some b, ⟨[a]⟩) ∧
    NonEmptyVec.remove ⟨[a, b]⟩ 0 = (some a, ⟨[b]⟩) ∧
    NonEmptyVec.swapRemove ⟨[a, b]⟩ 0 = (some a, ⟨[b]⟩) :=
  ⟨rfl, rfl, rfl, rfl, rfl, rfl⟩

/-- C3: the checked constructors `NonEmptyVec::new` and
`NonEmptySlice::from_boxed_slice` fail exactly when the input is empty,
and the error carries the rejected input back unchanged via `get`. -/
theorem new_rejects_exactly_empty (l : List α) :
    (∀ e, NonEmptyVec.new l = Except.error e → e.get = l) ∧
    ((∃ e, NonEmptyVec.new l = Except.error e) ↔ l = []) ∧
    (∀ e, NonEmptySlice.fromBoxedSlice l = Except.error e → e.get = l) ∧
    ((∃ e, NonEmptySlice.fromBoxedSlice l = Except.error e) ↔ l = []) := by
  cases l with
  | nil =>
    refine ⟨?_, ?_, ?_, ?_⟩
    · intro e he
      have hmk : (⟨[]⟩ : EmptyVec α) = e := by
        simpa [NonEmptyVec.new] using he
      rw [← hmk]
      rfl
    · simp [NonEmptyVec.new]
    · intro e he
      have hmk : (⟨[]⟩ : EmptyBoxedSlice α) = e := by
        simpa [NonEmptySlice.fromBoxedSlice] using he
      rw [← hmk]
      rfl
    · simp [NonEmptySlice.fromBoxedSlice]
  | cons x xs =>
    refine ⟨?_, ?_, ?_, ?_⟩ <;>
      simp [NonEmptyVec.new, NonEmptySlice.fromBoxedSlice, NonEmptyVec.newUnchecked]

/-- C3 witness: the empty input is rejected and recovered via `get`. -/
theorem new_rejects_exactly_empty_witness :
    ∃ e, NonEmptyVec.new ([] : List Nat) = Except.error e ∧ e.get = [] := by
  obtain ⟨e, he⟩ := (new_rejects_exactly_empty ([] : List Nat)).2.1.mpr rfl
  exact ⟨e, he, (new_rejects_exactly_empty ([] : List Nat)).1 e he⟩

/-- C4: for every non-empty plain vector, checked construction followed by
`into_vec` is the identity. -/
theorem NonEmptyVec.new_intoVec_roundtrip (l : List α) (h : l ≠ []) :
    NonEmptyVec.new l = Except.ok ⟨l⟩ ∧ NonEmptyVec.intoVec ⟨l⟩ = l := by
  cases l with
  | nil => exact absurd rfl h
  | cons x xs => exact ⟨rfl, rfl⟩

/-- C4 witness: the round-trip at a concrete non-empty vector. -/
theorem NonEmptyVec.new_intoVec_roundtrip_witness :
    NonEmptyVec.new [1, 2] = Except.ok ⟨[1, 2]⟩ ∧
      NonEmptyVec.intoVec ⟨[1, 2]⟩ = ([1, 2] : List Nat) :=
  NonEmptyVec.new_intoVec_roundtrip [1, 2] (by decide)

/-- C5: `pop_if` removes and returns the last element exactly when the
length is greater than 1 and the predicate holds on the last element;
otherwise it returns `none` and the vector is unchanged. -/
theorem NonEmptyVec.popIf_spec (p : α → Bool) (v : NonEmptyVec α) (h : v.inner ≠ []) :
    NonEmptyVec.popIf p v =
      if 1 < v.inner.length ∧ p (v.inner.getLast h) = true then
        (some (v.inner.getLast h), ⟨v.inner.dropLast⟩)
      else (none, v) := by
  by_cases hc : v.inner.length = 1
  · have hg := (NonEmptyVec.nextNonEmpty_eq_false_iff v).mpr hc
    unfold NonEmptyVec.popIf
    rw [hg]
    rw [if_neg (by simp)]
    rw [if_neg (fun hx => absurd hx.1 (by omega))]
  · have hg := (NonEmptyVec.nextNonEmpty_eq_true_iff v).mpr hc
    have hgt : 1 < v.inner.length := by
      have := List.length_pos.mpr h
      omega
    unfold NonEmptyVec.popIf
    rw [hg]
    simp only [if_true]
    simp only [Vec.popIf, List.getLast?_eq_getLast v.inner h]
    by_cases hp : p (v.inner.getLast h) = true
    · rw [if_pos hp, if_pos ⟨hgt, hp⟩]
    · rw [if_neg hp, if_neg (fun hx => hp hx.2)]

/-- C5 witness: `pop_if` at a concrete length-2 vector with a concrete
predicate that holds on the last element. -/
theorem NonEmptyVec.popIf_spec_witness :
    NonEmptyVec.popIf (fun x => decide (x = 2)) (⟨[1, 2]⟩ : NonEmptyVec Nat) =
      (some 2, ⟨[1]⟩) := by
  have hth := NonEmptyVec.popIf_spec (fun x => decide (x = 2))
    (⟨[1, 2]⟩ : NonEmptyVec Nat) (by decide)
  rw [hth]
  rfl

/-- C6: for every non-empty slice and positive chunk size, `chunks` yields
only non-empty chunks of at most `size` items that cover the slice
left-to-right (all but the last exactly `size` long, so only the last may
be shorter), and `chunks_exact` yields only chunks of exactly `size`
items (a shorter final remainder is dropped); in particular for the slice
`[1, 2, 3, 4, 5]` with chunk size 2, `chunks` yields `[1, 2]`, `[3, 4]`,
`[5]` (sizes 2, 2, 1) and `chunks_exact` yields `[1, 2]`, `[3, 4]` with
the trailing element dropped. -/
theorem NonEmptySlice.chunks_spec (s : NonEmptySlice α) (size : Size)
    (h : s.inner ≠ []) :
    (∀ c ∈ Chunks.intoIter s size, c.inner ≠ []) ∧
    ((Chunks.intoIter s size).map NonEmptySlice.inner).flatten = s.inner ∧
    (∀ c ∈ (Chunks.intoIter s size).dropLast, c.inner.length = size.get) ∧
    (∀ c ∈ Chunks.intoIter s size, c.inner.length ≤ size.get) ∧
    (∀ c ∈ ChunksExact.intoIter s size, c.inner.length = size.get) ∧
    Chunks.intoIter ⟨[1, 2, 3, 4, 5]⟩ ⟨2, by omega⟩ = [⟨[1, 2]⟩, ⟨[3, 4]⟩, ⟨[5]⟩] ∧
    ChunksExact.intoIter ⟨[1, 2, 3, 4, 5]⟩ ⟨2, by omega⟩ = [⟨[1, 2]⟩, ⟨[3, 4]⟩] := by
  obtain ⟨hf, hm, hd⟩ := Slice.chunksList_aux size s.inner.length s.inner (le_refl _)
  refine ⟨?_, ?_, ?_, ?_, ?_, ?_, ?_⟩
  · intro c hc
    simp only [Chunks.intoIter, List.mem_map] at hc
    obtain ⟨d, hd', rfl⟩ := hc
    exact (hm d hd').1
  · simp only [Chunks.intoIter, List.map_map]
    have hid : NonEmptySlice.inner ∘ NonEmptySlice.mk = fun l : List α => l := rfl
    rw [hid, List.map_id', hf]
  · intro c hc
    rw [Chunks.intoIter, map_dropLast_comm] at hc
    simp only [List.mem_map] at hc
    obtain ⟨d, hd', rfl⟩ := hc
    exact hd d hd'
  · intro c hc
    simp only [Chunks.intoIter, List.mem_map] at hc
    obtain ⟨d, hd', rfl⟩ := hc
    exact (hm d hd').2
  · intro c hc
    simp only [ChunksExact.intoIter, List.mem_map] at hc
    obtain ⟨d, hd', rfl⟩ := hc
    exact Slice.chunksExactList_aux size s.inner.length s.inner (le_refl _) d hd'
  · simp [Chunks.intoIter, Slice.chunksList]
  · simp [ChunksExact.intoIter, Slice.chunksExactList]

/-- C6 witness: the concrete five-element, size-two chunking scenario. -/
theorem NonEmptySlice.chunks_spec_witness :
    Chunks.intoIter (⟨[1, 2, 3, 4, 5]⟩ : NonEmptySlice Nat) ⟨2, by omega⟩ =
      [⟨[1, 2]⟩, ⟨[3, 4]⟩, ⟨[5]⟩] :=
  (NonEmptySlice.chunks_spec (⟨[1, 2, 3, 4, 5]⟩ : NonEmptySlice Nat) ⟨2, by omega⟩
    (by decide)).2.2.2.2.2.1

/-- C7: deserializing the serialization of a non-empty vector yields it
back, and deserializing a serialized empty plain vector fails with the
emptiness error mapped into the framework's error. -/
theorem NonEmptyVec.serde_roundtrip {α : Type u} :
    (∀ v : NonEmptyVec α, v.inner ≠ [] →
        NonEmptyVec.deserialize (NonEmptyVec.serialize v) = Except.ok v) ∧
    NonEmptyVec.deserialize ([] : List α) = Except.error EMPTY_VEC := by
  constructor
  · intro v hv
    obtain ⟨l⟩ := v
    cases l with
    | nil => exact absurd rfl hv
    | cons x xs => rfl
  · rfl

/-- C7 witness: the round-trip at a concrete non-empty vector. -/
theorem NonEmptyVec.serde_roundtrip_witness :
    NonEmptyVec.deserialize (NonEmptyVec.serialize (⟨[1]⟩ : NonEmptyVec Nat)) =
      Except.ok ⟨[1]⟩ :=
  (NonEmptyVec.serde_roundtrip).1 ⟨[1]⟩ (by decide)

/-- C8: equality, ordering and hashing of `CowSlice` depend only on the
logical element sequence, not on the active branch: a borrowed wrapper and
an owned wrapper holding equal elements compare equal, order equally and
hash equally, and in general any two wrappers with equal `get` are
interchangeable for equality, ordering and hashing. -/
theorem CowSlice.eq_ord_hash_branch_independent [BEq α] [LawfulBEq α]
    (cmp : α → α → Ordering) (hcmp : ∀ x, cmp x x = Ordering.eq)
    (mix : Nat → α → Nat) (seed : Nat) (l : List α) :
    (CowSlice.beq ⟨Cow.borrowed l⟩ ⟨Cow.owned l⟩ = true ∧
     CowSlice.compareBy cmp ⟨Cow.borrowed l⟩ ⟨Cow.owned l⟩ = Ordering.eq ∧
     CowSlice.hashWith mix seed ⟨Cow.borrowed l⟩ =
       CowSlice.hashWith mix seed ⟨Cow.owned l⟩) ∧
    (∀ a b c : CowSlice α, a.get = b.get →
      CowSlice.beq a c = CowSlice.beq b c ∧
      CowSlice.beq c a = CowSlice.beq c b ∧
      CowSlice.compareBy cmp a c = CowSlice.compareBy cmp b c ∧
      CowSlice.compareBy cmp c a = CowSlice.compareBy cmp c b ∧
      CowSlice.hashWith mix seed a = CowSlice.hashWith mix seed b) := by
  refine ⟨⟨?_, ?_, rfl⟩, ?_⟩
  · simp [CowSlice.beq, CowSlice.get, Cow.deref]
  · exact Slice.lexCompare_self cmp hcmp l
  · intro a b c hab
    refine ⟨?_, ?_, ?_, ?_, ?_⟩ <;>
      simp [CowSlice.beq, CowSlice.compareBy, CowSlice.hashWith, hab]

/-- C8 witness: a borrowed and an owned wrapper over the same concrete
elements compare equal. -/
theorem CowSlice.eq_ord_hash_branch_independent_witness :
    CowSlice.beq (⟨Cow.borrowed [1, 2]⟩ : CowSlice Nat) ⟨Cow.owned [1, 2]⟩ = true :=
  (CowSlice.eq_ord_hash_branch_independent (fun _ _ => Ordering.eq) (fun _ => rfl)
    (fun st _ => st) 0 [1, 2]).1.1

/-- C9: `is_empty` on `NonEmptyVec` and on `NonEmptySlice` always returns
`false`, regardless of contents. -/
theorem isEmpty_always_false (α : Type u) :
    (∀ v : NonEmptyVec α, NonEmptyVec.isEmpty v = false) ∧
    (∀ s : NonEmptySlice α, NonEmptySlice.isEmpty s = false) :=
  ⟨fun _ => rfl, fun _ => rfl⟩

/-- C10: on a length-1 vector, `pop_if` returns `none` without ever
invoking the predicate: the length guard is checked first (the `then`
closure holding the only predicate call site never runs), so the
instrumented trace of predicate invocations is empty and the vector is
unchanged. -/
theorem NonEmptyVec.popIf_len_one_skips_predicate (p : α → Bool)
    (v : NonEmptyVec α) (h : v.inner.length = 1) :
    NonEmptyVec.popIfTrace p v = (none, v, []) ∧
    NonEmptyVec.popIf p v = (none, v) := by
  have hg := (NonEmptyVec.nextNonEmpty_eq_false_iff v).mpr h
  constructor
  · unfold NonEmptyVec.popIfTrace
    rw [hg]
    rfl
  · unfold NonEmptyVec.popIf
    rw [hg]
    rfl

/-- C10 witness: the predicate-free boundary at a concrete length-1
vector. -/
theorem NonEmptyVec.popIf_len_one_skips_predicate_witness :
    NonEmptyVec.popIfTrace (fun _ => true) (⟨[7]⟩ : NonEmptyVec Nat) =
      (none, ⟨[7]⟩, []) :=
  (NonEmptyVec.popIf_len_one_skips_predicate (fun _ => true) ⟨[7]⟩ (by decide)).1
